import Mathlib

/-!
Shallow embedding of the encoding-conversion tool in src/to_utf8.py and
verification of its specification.

Conventions of the embedding:
- Python bytes are modelled as List (Fin 256); Python str values that carry
  file text are modelled as List Char; short identifier-like strings
  (encoding names, hints) are modelled as String.
- The regular-expression operations of the source are modelled by dedicated
  scanners that implement the leftmost-match, greedy-backtracking semantics
  of each concrete pattern used by the source.
- The external iconv and uchardet collaborators are modelled as explicit
  parameters (an oracle function and a detected-hint string).
-/

namespace ToUtf8

/-! ## Definitions: the shallow embedding of the source -/

/-- Whitespace characters stripped by str.strip() and matched by the
regex class for whitespace, restricted to ASCII as used by the source:
space, tab, newline, carriage return, vertical tab, form feed. -/
def isWs (c : Char) : Bool :=
  c.toNat = 32 ∨ c.toNat = 9 ∨ c.toNat = 10 ∨ c.toNat = 13 ∨ c.toNat = 11 ∨ c.toNat = 12

/-- ASCII uppercasing of one character, modelling str.upper() on the
ASCII-only encoding names handled by the source. -/
def upChar (c : Char) : Char :=
  if 97 ≤ c.toNat ∧ c.toNat ≤ 122 then
    Char.ofNat (c.toNat - 32)
  else c

/-- ASCII lowercasing of one character, used to model case-insensitive
regex matching. -/
def lowChar (c : Char) : Char :=
  if 65 ≤ c.toNat ∧ c.toNat ≤ 90 then
    Char.ofNat (c.toNat + 32)
  else c

/-- Characters admitted by the regex class for charset names: hyphen,
underscore, letters and digits. -/
def isNameChar (c : Char) : Bool :=
  c.toNat = 45 ∨ c.toNat = 95 ∨ (65 ≤ c.toNat ∧ c.toNat ≤ 90) ∨
    (97 ≤ c.toNat ∧ c.toNat ≤ 122) ∨ (48 ≤ c.toNat ∧ c.toNat ≤ 57)

/-- Quote characters admitted by the regexes. -/
def isQuote (c : Char) : Bool :=
  c.toNat = 34 ∨ c.toNat = 39

/-- The fixed alias table ENC_MAP of the source. -/
def ENC_MAP : List (String × String) :=
  [("UTF-8", "UTF-8"), ("UTF8", "UTF-8"), ("US-ASCII", "UTF-8"), ("ASCII", "UTF-8"),
   ("WINDOWS-1252", "CP1252"), ("CP-1252", "CP1252"), ("CP1252", "CP1252"),
   ("WINDOWS-1250", "CP1250"), ("CP-1250", "CP1250"), ("CP1250", "CP1250"),
   ("ISO-8859-1", "ISO-8859-1"), ("ISO8859-1", "ISO-8859-1"),
   ("ISO-8859-2", "ISO-8859-2"), ("ISO8859-2", "ISO-8859-2"),
   ("ISO-8859-3", "ISO-8859-3"), ("ISO8859-3", "ISO-8859-3"),
   ("ISO-8859-9", "ISO-8859-9"), ("ISO8859-9", "ISO-8859-9"),
   ("ISO-8859-13", "ISO-8859-13"), ("ISO8859-13", "ISO-8859-13"),
   ("ISO-8859-15", "ISO-8859-15"), ("ISO8859-15", "ISO-8859-15"),
   ("IBM865", "CP865"), ("CP865", "CP865"),
   ("MAC-CENTRALEUROPE", "MAC-CENTRALEUROPE"), ("MACCENTRALEUROPE", "MAC-CENTRALEUROPE")]

/-- Python str.strip(): drop whitespace from both ends. -/
def stripL (l : List Char) : List Char :=
  ((l.dropWhile isWs).reverse.dropWhile isWs).reverse

/-- Python str.upper() restricted to ASCII. -/
def upperL (l : List Char) : List Char :=
  l.map upChar

/-- Python str.replace applied to remove every space character. -/
def despaceL (l : List Char) : List Char :=
  l.filter (fun c => c != ' ')

/-- The strip/upper/despace part of normalize. -/
def canonL (l : List Char) : List Char :=
  despaceL (upperL (stripL l))

/-- Dictionary lookup ENC_MAP.get(e, e). -/
def lookupEnc (e : String) : String :=
  ((ENC_MAP.find? (fun p => p.1 == e)).map (fun p => p.2)).getD e

/-- The normalize function of the source: empty stays empty, otherwise
strip, uppercase, remove spaces, then map through the alias table with
unrecognized names passing through unchanged. -/
def normalize (enc : String) : String :=
  if enc = "" then ""
  else lookupEnc (String.mk (canonL enc.data))

/-- Uppercasing of a whole string, modelling the dec.upper() membership
test in process_file. -/
def upperS (s : String) : String :=
  String.mk (upperL s.data)

/-- The fixed fallback sequence of the source. -/
def fallbackEncs : List String :=
  ["CP1252", "ISO-8859-1", "CP1250", "ISO-8859-13", "CP865", "MAC-CENTRALEUROPE"]

/-- The dedup-and-filter loop of process_file: normalize each entry
(empty entries stay empty), drop empties and already-seen names. -/
def buildLoop : List String → List String → List String
  | [], _ => []
  | c :: cs, seen =>
    let n := if c = "" then "" else normalize c
    if n ≠ "" ∧ ¬ (n ∈ seen) then n :: buildLoop cs (n :: seen)
    else buildLoop cs seen

/-- The ordered candidate list built by process_file. -/
def buildCandidates (dec det : String) : List String :=
  buildLoop (dec :: det :: fallbackEncs) []

/-- Fuelled worker for keepFirsts; the fuel dominates the list length. -/
def keepFirstsF : Nat → List String → List String
  | 0, _ => []
  | _ + 1, [] => []
  | fuel + 1, x :: xs => x :: keepFirstsF fuel (xs.filter (fun y => y != x))

/-- Keep the first occurrence of each element, dropping later duplicates.
This is the specification-side description of deduplication. -/
def keepFirsts (l : List String) : List String :=
  keepFirstsF l.length l

/-- Specification-side normalization exactly as the claim words it:
uppercase, strip internal spaces, map through the alias table. It does
not strip leading or trailing whitespace. -/
def normalizeClaim (s : String) : String :=
  lookupEnc (String.mk (despaceL (upperL s.data)))

/-- Specification-side normalization as amended: additionally strip
leading and trailing whitespace first, as the source does. -/
def normalizeAmended (s : String) : String :=
  lookupEnc (String.mk (canonL s.data))

/-- Specification-side candidate list: normalize every entry, drop the
empty ones, and deduplicate keeping first occurrences. -/
def candidatesSpec (norm : String → String) (dec det : String) : List String :=
  keepFirsts (((dec :: det :: fallbackEncs).map norm).filter (fun s => s != ""))

/-- Match a literal (given lowercase), case-insensitively; return the rest. -/
def matchLitCI : List Char → List Char → Option (List Char)
  | [], s => some s
  | _ :: _, [] => none
  | p :: ps, c :: cs => if lowChar c = p then matchLitCI ps cs else none

/-- Greedily consume whitespace. -/
def skipWs : List Char → List Char
  | [] => []
  | c :: cs => if isWs c then skipWs cs else c :: cs

/-- Consume at least one whitespace character, then any further ones. -/
def skipWs1 : List Char → Option (List Char)
  | [] => none
  | c :: cs => if isWs c then some (skipWs cs) else none

/-- Consume one expected character. -/
def expectChar (ch : Char) : List Char → Option (List Char)
  | [] => none
  | c :: cs => if c = ch then some cs else none

/-- Consume one required quote character. -/
def expectQuote : List Char → Option (List Char)
  | [] => none
  | c :: cs => if isQuote c then some cs else none

/-- Consume one optional quote character. On these patterns the option is
deterministic: keeping an unconsumed quote can never let the remainder of
the pattern match, since no following element matches a quote. -/
def optQuote : List Char → List Char
  | [] => []
  | c :: cs => if isQuote c then cs else c :: cs

/-- Split the greedy run of name characters off the front. -/
def splitNameRun : List Char → List Char × List Char
  | [] => ([], [])
  | c :: cs =>
    if isNameChar c then
      let p := splitNameRun cs
      (c :: p.1, p.2)
    else ([], c :: cs)

/-- Capture a nonempty greedy run of name characters; return it and the rest. -/
def takeName1 (s : List Char) : Option (List Char × List Char) :=
  match s with
  | [] => none
  | c :: _ => if isNameChar c then some (splitNameRun s) else none

/-- Split a list at the first closing angle bracket: the part before it and
the part after it. Fails when there is none. -/
def splitAtGt : List Char → Option (List Char × List Char)
  | [] => none
  | c :: cs =>
    if c = '>' then some ([], cs)
    else (splitAtGt cs).map (fun p => (c :: p.1, p.2))

/-- Match the charset-value part of the meta patterns at the current
position: the charset literal, optional whitespace around an equals sign,
an optional quote (followed by optional whitespace only in the byte-level
pattern of META_CHARSET_RE, selected by wsAfterQuote), then a nonempty
name. Returns the captured name and the rest. -/
def matchCharsetVal (wsAfterQuote : Bool) (s : List Char) : Option (List Char × List Char) :=
  (matchLitCI ("charset".data) s).bind fun s1 =>
  (expectChar '=' (skipWs s1)).bind fun s2 =>
  let s3 := skipWs s2
  let s4 :=
    match s3 with
    | [] => s3
    | c :: cs => if isQuote c then (if wsAfterQuote then skipWs cs else cs) else s3
  takeName1 s4

/-- The charset capture chosen by the greedy leading gap of
META_CHARSET_RE inside one tag interior: the rightmost viable position. -/
def lastCharsetCapture : List Char → Option (List Char)
  | [] => none
  | c :: cs =>
    match lastCharsetCapture cs with
    | some r => some r
    | none => (matchCharsetVal true (c :: cs)).map (fun p => p.1)

/-- A match of META_CHARSET_RE starting at the current position: the meta
literal, then a tag interior delimited by the first closing bracket that
contains a viable charset assignment. Returns the captured name. -/
def metaCaptureAt (s : List Char) : Option (List Char) :=
  (matchLitCI ("<meta".data) s).bind fun s1 =>
  (splitAtGt s1).bind fun p =>
  lastCharsetCapture p.1

/-- Leftmost search of META_CHARSET_RE over the whole input. -/
def scanMeta : List Char → Option (List Char)
  | [] => none
  | c :: cs =>
    match metaCaptureAt (c :: cs) with
    | some r => some r
    | none => scanMeta cs

/-- Shared middle part of both http-equiv patterns: whitespace, the
http-equiv attribute with its content-type value in optional quotes, then
whitespace and the content attribute name. -/
def httpEquivPart1 (s1 : List Char) : Option (List Char) :=
  (skipWs1 s1).bind fun s2 =>
  (matchLitCI ("http-equiv".data) s2).bind fun s3 =>
  (expectChar '=' (skipWs s3)).bind fun s4 =>
  (matchLitCI ("content-type".data) (optQuote (skipWs s4))).bind fun s5 =>
  (skipWs1 (optQuote s5)).bind fun s6 =>
  matchLitCI ("content".data) s6

/-- Byte-level HTTP_EQUIV_RE: the content value up to its charset key,
with whitespace admitted after the opening quote and around text/html. -/
def httpEquivPart2 (s7 : List Char) : Option (List Char) :=
  (expectChar '=' (skipWs s7)).bind fun s8 =>
  (expectQuote (skipWs s8)).bind fun s9 =>
  (matchLitCI ("text/html".data) (skipWs s9)).bind fun s10 =>
  (expectChar ';' (skipWs s10)).bind fun s11 =>
  matchLitCI ("charset".data) (skipWs s11)

/-- Byte-level HTTP_EQUIV_RE: the captured charset name, the closing
quote with whitespace admitted on both sides, and the closing bracket. -/
def httpEquivPart3 (s12 : List Char) : Option (List Char) :=
  (expectChar '=' (skipWs s12)).bind fun s13 =>
  (takeName1 (skipWs s13)).bind fun p =>
  (expectQuote (skipWs p.2)).bind fun s14 =>
  (expectChar '>' (skipWs s14)).map fun _ => p.1

/-- A match of the byte-level HTTP_EQUIV_RE pattern starting at the
current position, returning the captured charset name. -/
def httpEquivCaptureAt (s : List Char) : Option (List Char) :=
  (matchLitCI ("<meta".data) s).bind fun s1 =>
  (httpEquivPart1 s1).bind fun s7 =>
  (httpEquivPart2 s7).bind fun s12 =>
  httpEquivPart3 s12

/-- Leftmost search of the byte-level HTTP_EQUIV_RE. -/
def scanHttpEquiv : List Char → Option (List Char)
  | [] => none
  | c :: cs =>
    match httpEquivCaptureAt (c :: cs) with
    | some r => some r
    | none => scanHttpEquiv cs

/-- View a byte as the character of the same code point, which preserves
the byte-level regex semantics of the source for the ASCII-defined
patterns. -/
def byteChar (b : Fin 256) : Char :=
  Char.ofNat b.val

/-- The declared_charset function of the source: first match of
META_CHARSET_RE, else first match of HTTP_EQUIV_RE, else empty; the
captured group is ASCII and decodes to itself. -/
def declaredCharset (data : List (Fin 256)) : String :=
  let chars := data.map byteChar
  match scanMeta chars with
  | some r => String.mk r
  | none =>
    match scanHttpEquiv chars with
    | some r => String.mk r
    | none => ""

/-- The canonical replacement tag written by the source. -/
def canonicalMeta : List Char :=
  ("<meta charset=\"utf-8\">").data

/-- Viability of the text-level charset assignment anywhere inside a tag
interior: this realises the greedy backtracking gap of the first
substitution pattern of ensure_meta_utf8. -/
def anyCharsetViable : List Char → Bool
  | [] => false
  | c :: cs => (matchCharsetVal false (c :: cs)).isSome || anyCharsetViable cs

/-- A match of the first substitution pattern of ensure_meta_utf8 at the
current position: a meta tag whose interior, up to the first closing
bracket, contains a viable charset assignment. Returns the rest after
the tag. -/
def sub1MatchAt (s : List Char) : Option (List Char) :=
  (matchLitCI ("<meta".data) s).bind fun s1 =>
  (splitAtGt s1).bind fun p =>
  if anyCharsetViable p.1 then some p.2 else none

/-- Fuelled generic left-to-right global substitution: at each position
where the matcher succeeds, emit the canonical meta tag and continue
after the match, otherwise keep the character and move on. The fuel
dominates the list length. -/
def subF (matchAt : List Char → Option (List Char)) : Nat → List Char → List Char
  | 0, s => s
  | _ + 1, [] => []
  | fuel + 1, c :: cs =>
    match matchAt (c :: cs) with
    | some rest => canonicalMeta ++ subF matchAt fuel rest
    | none => c :: subF matchAt fuel cs

/-- The global first substitution of ensure_meta_utf8: replace every
matched meta-charset tag with the canonical tag, scanning left to right. -/
def sub1 (s : List Char) : List Char :=
  subF sub1MatchAt s.length s

/-- Text-level http-equiv pattern: content value with no whitespace
admitted around text/html, as written in ensure_meta_utf8. -/
def sub2Part2 (s7 : List Char) : Option (List Char) :=
  (expectChar '=' (skipWs s7)).bind fun s8 =>
  (expectQuote (skipWs s8)).bind fun s9 =>
  (matchLitCI ("text/html;".data) s9).bind fun s10 =>
  matchLitCI ("charset".data) (skipWs s10)

/-- Text-level http-equiv pattern: charset value, closing quote directly
after the name, optional whitespace, closing bracket; returns the rest. -/
def sub2Part3 (s12 : List Char) : Option (List Char) :=
  (expectChar '=' (skipWs s12)).bind fun s13 =>
  (takeName1 (skipWs s13)).bind fun p =>
  (expectQuote p.2).bind fun s14 =>
  expectChar '>' (skipWs s14)

/-- A match of the second substitution pattern of ensure_meta_utf8 at the
current position; returns the rest after the matched tag. -/
def sub2MatchAt (s : List Char) : Option (List Char) :=
  (matchLitCI ("<meta".data) s).bind fun s1 =>
  (httpEquivPart1 s1).bind fun s7 =>
  (sub2Part2 s7).bind fun s12 =>
  sub2Part3 s12

/-- The global second substitution of ensure_meta_utf8. -/
def sub2 (s : List Char) : List Char :=
  subF sub2MatchAt s.length s

/-- The charset part of the search pattern that checks for a present
UTF-8 declaration. -/
def utf8declAt (s : List Char) : Bool :=
  ((matchLitCI ("charset".data) s).bind fun s1 =>
   (expectChar '=' (skipWs s1)).bind fun s2 =>
   matchLitCI ("\"utf-8\"".data) (skipWs s2)).isSome

/-- Search for the charset part within the bracket-free gap after a meta
literal. -/
def findCharsetUtf8 : List Char → Bool
  | [] => false
  | c :: cs =>
    if utf8declAt (c :: cs) then true
    else if c = '>' then false
    else findCharsetUtf8 cs

/-- The search of ensure_meta_utf8 for an existing UTF-8 declaration. -/
def hasUtf8Meta : List Char → Bool
  | [] => false
  | c :: cs =>
    (match matchLitCI ("<meta".data) (c :: cs) with
     | some s1 => findCharsetUtf8 s1
     | none => false) || hasUtf8Meta cs

/-- A match of the head-tag pattern at the current position: the head
literal then the attribute interior up to the first closing bracket. -/
def headMatchAt (s : List Char) : Option (List Char × List Char) :=
  (matchLitCI ("<head".data) s).bind splitAtGt

/-- The insertion substitution of ensure_meta_utf8, applied at most once:
after the first head tag, insert a newline and the canonical meta tag. -/
def insertAfterHead : List Char → List Char
  | [] => []
  | c :: cs =>
    match headMatchAt (c :: cs) with
    | some p => ("<head".data) ++ p.1 ++ '>' :: '\n' :: (canonicalMeta ++ p.2)
    | none => c :: insertAfterHead cs

/-- Whether the text contains an opening head tag closed by a bracket,
that is, a position where the insertion pattern matches. -/
def headTagPresent : List Char → Bool
  | [] => false
  | c :: cs => (headMatchAt (c :: cs)).isSome || headTagPresent cs

/-- The ensure_meta_utf8 function of the source: identity on non-markup
text; on markup text, both substitutions, then an insertion after the
first head tag when no UTF-8 declaration is found. -/
def ensureMetaUtf8 (t : List Char) (isHtml : Bool) : List Char :=
  if isHtml then
    let t2 := sub2 (sub1 t)
    if hasUtf8Meta t2 then t2 else insertAfterHead t2
  else t

/-- Whether a byte is a UTF-8 continuation byte. -/
def isCont (b : Fin 256) : Bool :=
  0x80 ≤ b.val ∧ b.val ≤ 0xBF

/-- One step of strict UTF-8 decoding, as performed by Python bytes
decoding with the utf-8 codec: decode one scalar value from the front,
rejecting overlong forms, surrogates and values beyond the Unicode
range; return the character and the remaining bytes. -/
def utf8Step : List (Fin 256) → Option (Char × List (Fin 256))
  | [] => none
  | b0 :: rest =>
    if b0.val ≤ 0x7F then some (Char.ofNat b0.val, rest)
    else if 0xC2 ≤ b0.val ∧ b0.val ≤ 0xDF then
      match rest with
      | [] => none
      | b1 :: r2 =>
        if isCont b1 = true then
          some (Char.ofNat ((b0.val - 0xC0) * 64 + (b1.val - 0x80)), r2)
        else none
    else if 0xE0 ≤ b0.val ∧ b0.val ≤ 0xEF then
      match rest with
      | b1 :: b2 :: r3 =>
        if (if b0.val = 0xE0 then 0xA0 ≤ b1.val ∧ b1.val ≤ 0xBF
            else if b0.val = 0xED then 0x80 ≤ b1.val ∧ b1.val ≤ 0x9F
            else isCont b1 = true) ∧ isCont b2 = true then
          some (Char.ofNat
            ((b0.val - 0xE0) * 4096 + (b1.val - 0x80) * 64 + (b2.val - 0x80)), r3)
        else none
      | _ => none
    else if 0xF0 ≤ b0.val ∧ b0.val ≤ 0xF4 then
      match rest with
      | b1 :: b2 :: b3 :: r4 =>
        if (if b0.val = 0xF0 then 0x90 ≤ b1.val ∧ b1.val ≤ 0xBF
            else if b0.val = 0xF4 then 0x80 ≤ b1.val ∧ b1.val ≤ 0x8F
            else isCont b1 = true) ∧ isCont b2 = true ∧ isCont b3 = true then
          some (Char.ofNat
            ((b0.val - 0xF0) * 262144 + (b1.val - 0x80) * 4096
              + (b2.val - 0x80) * 64 + (b3.val - 0x80)), r4)
        else none
      | _ => none
    else none

/-- Fuelled worker iterating utf8Step; the fuel dominates the length. -/
def utf8DecodeF : Nat → List (Fin 256) → Option (List Char)
  | _, [] => some []
  | 0, _ :: _ => none
  | fuel + 1, b0 :: rest =>
    match utf8Step (b0 :: rest) with
    | none => none
    | some (c, r) => (utf8DecodeF fuel r).map (fun cs => c :: cs)

/-- Strict UTF-8 decoding of a whole byte list. -/
def utf8Decode (l : List (Fin 256)) : Option (List Char) :=
  utf8DecodeF l.length l

/-- The is_valid_utf8 check of the source. -/
def isValidUtf8 (b : List (Fin 256)) : Bool :=
  (utf8Decode b).isSome

/-- UTF-8 encoding of one code point below 0x110000. -/
def encodeCp (n : Nat) (hn : n < 0x110000) : List (Fin 256) :=
  if h1 : n ≤ 0x7F then [⟨n, by omega⟩]
  else if h2 : n ≤ 0x7FF then
    [⟨0xC0 + n / 64, by omega⟩, ⟨0x80 + n % 64, by omega⟩]
  else if h3 : n ≤ 0xFFFF then
    [⟨0xE0 + n / 4096, by omega⟩, ⟨0x80 + n / 64 % 64, by omega⟩,
     ⟨0x80 + n % 64, by omega⟩]
  else
    [⟨0xF0 + n / 262144, by omega⟩, ⟨0x80 + n / 4096 % 64, by omega⟩,
     ⟨0x80 + n / 64 % 64, by omega⟩, ⟨0x80 + n % 64, by omega⟩]

/-- UTF-8 encoding of one character. -/
def encodeChar (c : Char) : List (Fin 256) :=
  encodeCp c.toNat (by
    have h : c.toNat.isValidChar := c.valid
    rcases h with h | h
    · omega
    · omega)

/-- UTF-8 encoding of a text, as performed when the source persists a
file with write_text. -/
def utf8Encode : List Char → List (Fin 256)
  | [] => []
  | c :: cs => encodeChar c ++ utf8Encode cs

/-- Conversion of one code point to a character, checking validity as the
latin-1 codec path must. -/
def charOfCp (n : Nat) : Option Char :=
  if h : n.isValidChar then some (Char.ofNatAux n h) else none

/-- Python latin-1 decoding: each byte becomes the character with the
same code point, when that code point is a valid character. -/
def latin1Decode (data : List (Fin 256)) : Option (List Char) :=
  data.mapM (fun b => charOfCp b.val)

/-- Bytes of a string whose characters are all below 256, used to write
concrete file contents. -/
def asciiBytes (s : String) : List (Fin 256) :=
  s.data.map (fun c => (⟨c.toNat % 256, Nat.mod_lt _ (by omega)⟩ : Fin 256))

/-- Result of one invocation of the external iconv process: it may time
out, raise some other exception, or complete with a return code and
output bytes. -/
inductive IconvRes where
  | timeout : IconvRes
  | exn : IconvRes
  | completed : Nat → List (Fin 256) → IconvRes
deriving DecidableEq

/-- The environment of one conversion attempt: given the current bytes of
the file and a source encoding name, what the external iconv run does. -/
def Iconv : Type :=
  List (Fin 256) → String → IconvRes

/-- The convert_with_iconv function of the source: empty bytes on a
timeout or any exception, the output on a zero return code when it is
itself valid UTF-8, empty bytes otherwise. -/
def convertWithIconv (r : IconvRes) : List (Fin 256) :=
  match r with
  | .timeout => []
  | .exn => []
  | .completed rc out => if rc = 0 ∧ isValidUtf8 out then out else []

/-- The terminal status of processing one file, mirroring the SKIP,
OK-DRY, OK, OK-star and FAIL result lines of process_file. -/
inductive Outcome where
  | skip : Outcome
  | okDry : String → Outcome
  | ok : String → Outcome
  | okStar : Outcome
  | fail : String → String → Outcome
deriving DecidableEq

/-- Whether an outcome is the FAIL outcome. -/
def Outcome.isFail : Outcome → Bool
  | .fail _ _ => true
  | _ => false

/-- The names accepted by the already-UTF-8 short circuit for the
declared hint, compared against its uppercased form. -/
def utf8Names : List String :=
  ["UTF-8", "UTF8", "US-ASCII", "ASCII"]

/-- The candidate-attempt loop of process_file: try each candidate in
order; a nonempty conversion result is accepted, reported as OK-DRY in a
dry run, and otherwise decoded, meta-normalized for markup and written.
An empty result or a failed decode advances to the next candidate. -/
def tryCands (oracle : Iconv) (data : List (Fin 256)) (isHtml dry : Bool) :
    List String → Option (Outcome × Option (List Char))
  | [] => none
  | enc :: rest =>
    let out := convertWithIconv (oracle data enc)
    if out = [] then tryCands oracle data isHtml dry rest
    else if dry then some (.okDry enc, none)
    else
      match utf8Decode out with
      | none => tryCands oracle data isHtml dry rest
      | some text =>
        some (.ok enc, some (if isHtml then ensureMetaUtf8 text true else text))

/-- The candidate phase and fallback of process_file: build the candidate
list, try the candidates, and otherwise reinterpret the bytes as latin-1,
meta-normalize for markup, and write unless in a dry run. -/
def convertPhase (oracle : Iconv) (data : List (Fin 256)) (dec det : String)
    (isHtml dry : Bool) : Outcome × Option (List Char) :=
  match tryCands oracle data isHtml dry (buildCandidates dec det) with
  | some r => r
  | none =>
    match latin1Decode data with
    | some text =>
      let t := if isHtml then ensureMetaUtf8 text true else text
      (.okStar, if dry then none else some t)
    | none => (.fail dec det, none)

/-- The process_file function of the source over one file: the declared
charset is extracted from the raw bytes, the detected hint and the iconv
behaviour are environment parameters; the returned pair is the outcome
and the text persisted by write_text, when any. -/
def processFile (oracle : Iconv) (data : List (Fin 256)) (det : String)
    (isHtml dry : Bool) : Outcome × Option (List Char) :=
  let dec := declaredCharset data
  match utf8Decode data with
  | some t =>
    if dec = "" ∨ upperS dec ∈ utf8Names then
      (.skip, if isHtml && !dry then some (ensureMetaUtf8 t true) else none)
    else convertPhase oracle data dec det isHtml dry
  | none => convertPhase oracle data dec det isHtml dry

/-- An exception escaping process_file for one file: either an operator
interrupt or any other exception carrying its description. -/
inductive PyExc where
  | keyboardInterrupt : PyExc
  | other : String → PyExc
deriving DecidableEq

/-- The result of processing one enumerated file in main: the returned
status message or an escaped exception, together with the path. -/
def FileRun : Type :=
  String × Except PyExc String

/-- The reported line for one file that did not interrupt the run. -/
def lineFor (r : FileRun) : String :=
  match r.2 with
  | .ok msg => "  " ++ msg
  | .error (.other e) => "  ERROR " ++ r.1 ++ ": " ++ e
  | .error .keyboardInterrupt => "Interrupted by user."

/-- The reporting loop of main: one line per file; an ERROR line on any
other exception, continuing with the next file; an interrupt stops the
run at once. -/
def runAll : List FileRun → List String
  | [] => []
  | r :: rest =>
    match r.2 with
    | .ok _ => lineFor r :: runAll rest
    | .error (.other _) => lineFor r :: runAll rest
    | .error .keyboardInterrupt => ["Interrupted by user."]

/-! ## Theorems -/

theorem keepFirstsF_fuel : ∀ fuel : Nat, ∀ l : List String, l.length ≤ fuel →
    keepFirstsF fuel l = keepFirsts l := by
  intro fuel
  induction fuel using Nat.strong_induction_on with
  | _ fuel ih =>
    intro l hl
    match fuel, l with
    | 0, [] => rfl
    | 0, _ :: _ => simp at hl
    | f + 1, [] => rfl
    | f + 1, x :: xs =>
      have hfil : (xs.filter (fun y => y != x)).length ≤ xs.length :=
        List.length_filter_le _ _
      simp only [List.length_cons] at hl
      rw [keepFirstsF, keepFirsts, List.length_cons, keepFirstsF]
      rw [ih f (by omega) _ (by omega), ih xs.length (by omega) _ (by omega)]

theorem keepFirsts_cons (x : String) (xs : List String) :
    keepFirsts (x :: xs) = x :: keepFirsts (xs.filter (fun y => y != x)) := by
  rw [keepFirsts, List.length_cons, keepFirstsF]
  rw [keepFirstsF_fuel _ _ (List.length_filter_le _ _)]

theorem matchLitCI_length (pat : List Char) :
    ∀ s r : List Char, matchLitCI pat s = some r → r.length + pat.length = s.length := by
  induction pat with
  | nil =>
    intro s r h
    simp [matchLitCI] at h
    simp [h]
  | cons p ps ih =>
    intro s r h
    cases s with
    | nil => simp [matchLitCI] at h
    | cons c cs =>
      rw [matchLitCI] at h
      split at h
      · have := ih cs r h
        simp [List.length_cons]
        omega
      · exact absurd h (by simp)

theorem skipWs_length (s : List Char) : (skipWs s).length ≤ s.length := by
  induction s with
  | nil => simp [skipWs]
  | cons c cs ih =>
    rw [skipWs]
    split
    · exact Nat.le_succ_of_le ih
    · exact Nat.le_refl _

theorem skipWs1_length (s r : List Char) (h : skipWs1 s = some r) :
    r.length < s.length := by
  cases s with
  | nil => simp [skipWs1] at h
  | cons c cs =>
    rw [skipWs1] at h
    split at h
    · cases h
      exact Nat.lt_succ_of_le (skipWs_length cs)
    · exact absurd h (by simp)

theorem expectChar_length (ch : Char) (s r : List Char) (h : expectChar ch s = some r) :
    r.length + 1 = s.length := by
  cases s with
  | nil => simp [expectChar] at h
  | cons c cs =>
    rw [expectChar] at h
    split at h
    · cases h; simp
    · exact absurd h (by simp)

theorem expectQuote_length (s r : List Char) (h : expectQuote s = some r) :
    r.length + 1 = s.length := by
  cases s with
  | nil => simp [expectQuote] at h
  | cons c cs =>
    rw [expectQuote] at h
    split at h
    · cases h; simp
    · exact absurd h (by simp)

theorem optQuote_length (s : List Char) : (optQuote s).length ≤ s.length := by
  cases s with
  | nil => simp [optQuote]
  | cons c cs =>
    rw [optQuote]
    split
    · exact Nat.le_succ _
    · exact Nat.le_refl _

theorem splitNameRun_length (s : List Char) : (splitNameRun s).2.length ≤ s.length := by
  induction s with
  | nil => simp [splitNameRun]
  | cons c cs ih =>
    rw [splitNameRun]
    split
    · simpa using Nat.le_succ_of_le ih
    · simp

theorem takeName1_length (s : List Char) (p : List Char × List Char)
    (h : takeName1 s = some p) : p.2.length < s.length := by
  cases s with
  | nil => simp [takeName1] at h
  | cons c cs =>
    rw [takeName1] at h
    split at h
    · cases h
      have h1 : (splitNameRun (c :: cs)).2.length ≤ (c :: cs).length := splitNameRun_length _
      rw [splitNameRun] at h1 ⊢
      split at h1
      · split
        · simp only [List.length_cons] at h1 ⊢
          have := splitNameRun_length cs
          omega
        · simp_all
      · split
        · simp_all
        · simp_all
    · exact absurd h (by simp)

theorem splitAtGt_length (s : List Char) :
    ∀ p : List Char × List Char, splitAtGt s = some p →
      p.1.length + p.2.length + 1 = s.length := by
  induction s with
  | nil => intro p h; simp [splitAtGt] at h
  | cons c cs ih =>
    intro p h
    rw [splitAtGt] at h
    split at h
    · cases h; simp
    · rw [Option.map_eq_some'] at h
      obtain ⟨q, hq, rfl⟩ := h
      have := ih q hq
      simp [List.length_cons]
      omega

theorem sub1MatchAt_length (s r : List Char) (h : sub1MatchAt s = some r) :
    r.length < s.length := by
  rw [sub1MatchAt, Option.bind_eq_some] at h
  obtain ⟨s1, h1, h⟩ := h
  rw [Option.bind_eq_some] at h
  obtain ⟨p, h2, h⟩ := h
  split at h
  · cases h
    have e1 := matchLitCI_length _ _ _ h1
    have e2 := splitAtGt_length _ _ h2
    simp at e1
    omega
  · exact absurd h (by simp)

theorem subF_fuel (matchAt : List Char → Option (List Char))
    (hlen : ∀ s r, matchAt s = some r → r.length < s.length) :
    ∀ fuel : Nat, ∀ l : List Char, l.length ≤ fuel →
      subF matchAt fuel l = subF matchAt l.length l := by
  intro fuel
  induction fuel using Nat.strong_induction_on with
  | _ fuel ih =>
    intro l hl
    match fuel, l with
    | 0, [] => rfl
    | 0, _ :: _ => simp at hl
    | f + 1, [] => rfl
    | f + 1, c :: cs =>
      simp only [List.length_cons] at hl
      simp only [subF, List.length_cons]
      cases hm : matchAt (c :: cs) with
      | some rest =>
        have hr := hlen _ _ hm
        simp only [List.length_cons] at hr
        dsimp only
        rw [ih f (by omega) rest (by omega), ih cs.length (by omega) rest (by omega)]
      | none =>
        dsimp only
        rw [ih f (by omega) cs (by omega)]

theorem sub1_cons (c : Char) (cs : List Char) :
    sub1 (c :: cs) =
      match sub1MatchAt (c :: cs) with
      | some rest => canonicalMeta ++ sub1 rest
      | none => c :: sub1 cs := by
  rw [sub1]
  simp only [List.length_cons, subF]
  cases hm : sub1MatchAt (c :: cs) with
  | some rest =>
    have hr := sub1MatchAt_length _ _ hm
    simp only [List.length_cons] at hr
    dsimp only
    rw [subF_fuel _ sub1MatchAt_length cs.length rest (by omega), sub1]
  | none =>
    dsimp only
    rw [subF_fuel _ sub1MatchAt_length cs.length cs (by omega), sub1]

theorem httpEquivPart1_length (s r : List Char) (h : httpEquivPart1 s = some r) :
    r.length < s.length := by
  rw [httpEquivPart1, Option.bind_eq_some] at h
  obtain ⟨s2, h2, h⟩ := h
  rw [Option.bind_eq_some] at h
  obtain ⟨s3, h3, h⟩ := h
  rw [Option.bind_eq_some] at h
  obtain ⟨s4, h4, h⟩ := h
  rw [Option.bind_eq_some] at h
  obtain ⟨s5, h5, h⟩ := h
  rw [Option.bind_eq_some] at h
  obtain ⟨s6, h6, h⟩ := h
  have e2 := skipWs1_length _ _ h2
  have e3 := matchLitCI_length _ _ _ h3
  have e4 := expectChar_length _ _ _ h4
  have e4b := skipWs_length s3
  have e5 := matchLitCI_length _ _ _ h5
  have e5b := optQuote_length (skipWs s4)
  have e5c := skipWs_length s4
  have e6 := skipWs1_length _ _ h6
  have e6b := optQuote_length s5
  have e7 := matchLitCI_length _ _ _ h
  omega

theorem sub2Part2_length (s r : List Char) (h : sub2Part2 s = some r) :
    r.length < s.length := by
  rw [sub2Part2, Option.bind_eq_some] at h
  obtain ⟨s8, h8, h⟩ := h
  rw [Option.bind_eq_some] at h
  obtain ⟨s9, h9, h⟩ := h
  rw [Option.bind_eq_some] at h
  obtain ⟨s10, h10, h⟩ := h
  have e8 := expectChar_length _ _ _ h8
  have e8b := skipWs_length s
  have e9 := expectQuote_length _ _ h9
  have e9b := skipWs_length s8
  have e10 := matchLitCI_length _ _ _ h10
  have e11 := matchLitCI_length _ _ _ h
  have e11b := skipWs_length s10
  omega

theorem sub2Part3_length (s r : List Char) (h : sub2Part3 s = some r) :
    r.length < s.length := by
  rw [sub2Part3, Option.bind_eq_some] at h
  obtain ⟨s13, h13, h⟩ := h
  rw [Option.bind_eq_some] at h
  obtain ⟨p, hp, h⟩ := h
  rw [Option.bind_eq_some] at h
  obtain ⟨s14, h14, h⟩ := h
  have e13 := expectChar_length _ _ _ h13
  have e13b := skipWs_length s
  have ep := takeName1_length _ _ hp
  have epb := skipWs_length s13
  have e14 := expectQuote_length _ _ h14
  have e15 := expectChar_length _ _ _ h
  have e15b := skipWs_length s14
  omega

theorem sub2MatchAt_length (s r : List Char) (h : sub2MatchAt s = some r) :
    r.length < s.length := by
  rw [sub2MatchAt, Option.bind_eq_some] at h
  obtain ⟨s1, h1, h⟩ := h
  rw [Option.bind_eq_some] at h
  obtain ⟨s7, h7, h⟩ := h
  rw [Option.bind_eq_some] at h
  obtain ⟨s12, h12, h⟩ := h
  have e1 := matchLitCI_length _ _ _ h1
  have e7 := httpEquivPart1_length _ _ h7
  have e12 := sub2Part2_length _ _ h12
  have e13 := sub2Part3_length _ _ h
  omega

theorem sub2_cons (c : Char) (cs : List Char) :
    sub2 (c :: cs) =
      match sub2MatchAt (c :: cs) with
      | some rest => canonicalMeta ++ sub2 rest
      | none => c :: sub2 cs := by
  rw [sub2]
  simp only [List.length_cons, subF]
  cases hm : sub2MatchAt (c :: cs) with
  | some rest =>
    have hr := sub2MatchAt_length _ _ hm
    simp only [List.length_cons] at hr
    dsimp only
    rw [subF_fuel _ sub2MatchAt_length cs.length rest (by omega), sub2]
  | none =>
    dsimp only
    rw [subF_fuel _ sub2MatchAt_length cs.length cs (by omega), sub2]

theorem toNat_ofNat_valid {n : Nat} (h : n.isValidChar) : (Char.ofNat n).toNat = n := by
  simp [Char.ofNat, h, Char.ofNatAux, Char.toNat, UInt32.toNat, BitVec.toNat_ofNatLt]

theorem char_toNat_inj {a b : Char} (h : a.toNat = b.toNat) : a = b := by
  apply Char.eq_of_val_eq
  apply UInt32.eq_of_toBitVec_eq
  exact BitVec.eq_of_toNat_eq h

theorem upChar_toNat_lower {c : Char} (h1 : 97 ≤ c.toNat) (h2 : c.toNat ≤ 122) :
    (upChar c).toNat = c.toNat - 32 := by
  rw [upChar, if_pos ⟨h1, h2⟩]
  exact toNat_ofNat_valid (Or.inl (by omega))

theorem upChar_eq_self {c : Char} (h : ¬(97 ≤ c.toNat ∧ c.toNat ≤ 122)) :
    upChar c = c := by
  rw [upChar, if_neg h]

theorem upChar_upChar (c : Char) : upChar (upChar c) = upChar c := by
  by_cases h : 97 ≤ c.toNat ∧ c.toNat ≤ 122
  · have e := upChar_toNat_lower h.1 h.2
    exact upChar_eq_self (by omega)
  · simp only [upChar_eq_self h]

theorem isWs_upChar (c : Char) : isWs (upChar c) = isWs c := by
  by_cases h : 97 ≤ c.toNat ∧ c.toNat ≤ 122
  · have e := upChar_toNat_lower h.1 h.2
    simp only [isWs, decide_eq_decide]
    omega
  · rw [upChar_eq_self h]

theorem space_toNat : (' ' : Char).toNat = 32 := by decide

theorem bne_space_iff (c : Char) : (c != ' ') = true ↔ c.toNat ≠ 32 := by
  rw [bne_iff_ne]
  constructor
  · intro h he
    exact h (char_toNat_inj (by rw [he, space_toNat]))
  · intro h he
    exact h (by rw [he, space_toNat])

theorem bne_space_upChar (c : Char) : (upChar c != ' ') = (c != ' ') := by
  by_cases h : 97 ≤ c.toNat ∧ c.toNat ≤ 122
  · have e := upChar_toNat_lower h.1 h.2
    have h1 : (upChar c != ' ') = true := (bne_space_iff _).mpr (by omega)
    have h2 : (c != ' ') = true := (bne_space_iff _).mpr (by omega)
    rw [h1, h2]
  · rw [upChar_eq_self h]

theorem upperL_upperL (l : List Char) : upperL (upperL l) = upperL l := by
  induction l with
  | nil => rfl
  | cons c cs ih =>
    simp only [upperL, List.map_cons] at ih ⊢
    rw [upChar_upChar, ih]

theorem despaceL_despaceL (l : List Char) : despaceL (despaceL l) = despaceL l := by
  simp [despaceL, List.filter_filter]

theorem despaceL_upperL (l : List Char) : despaceL (upperL l) = upperL (despaceL l) := by
  induction l with
  | nil => rfl
  | cons c cs ih =>
    simp only [upperL, despaceL, List.map_cons, List.filter_cons] at ih ⊢
    rw [bne_space_upChar]
    by_cases h : (c != ' ') = true
    · simp only [h, if_true]
      rw [List.map_cons]
      exact congrArg _ ih
    · simp only [if_neg h]
      exact ih

theorem dropWhile_isWs_idem (l : List Char) :
    (l.dropWhile isWs).dropWhile isWs = l.dropWhile isWs := by
  induction l with
  | nil => rfl
  | cons c cs ih =>
    by_cases h : isWs c = true
    · rw [List.dropWhile_cons_of_pos h]
      exact ih
    · rw [List.dropWhile_cons_of_neg h, List.dropWhile_cons_of_neg h]

theorem dropWhile_eq_self_append {t r : List Char}
    (h : (t ++ r).dropWhile isWs = t ++ r) : t.dropWhile isWs = t := by
  cases t with
  | nil => rfl
  | cons c cs =>
    by_cases hc : isWs c = true
    · exfalso
      rw [List.cons_append, List.dropWhile_cons_of_pos hc] at h
      have := (List.dropWhile_sublist (l := cs ++ r) isWs).length_le
      rw [h] at this
      simp at this
    · rw [List.dropWhile_cons_of_neg hc]

theorem dropWhile_isWs_despace {m : List Char} (h : m.dropWhile isWs = m) :
    (despaceL m).dropWhile isWs = despaceL m := by
  cases m with
  | nil => rfl
  | cons c cs =>
    have hc : isWs c = false := by
      by_contra hcc
      rw [List.dropWhile_cons_of_pos (by simpa using hcc)] at h
      have := (List.dropWhile_sublist (l := cs) isWs).length_le
      rw [h] at this
      simp at this
    have hcsp : (c != ' ') = true := (bne_space_iff _).mpr (by
      intro he
      rw [isWs] at hc
      simp [he] at hc)
    rw [despaceL, List.filter_cons, if_pos hcsp]
    rw [List.dropWhile_cons_of_neg (by simp [hc])]

theorem dropWhile_isWs_upper {m : List Char} (h : m.dropWhile isWs = m) :
    (upperL m).dropWhile isWs = upperL m := by
  cases m with
  | nil => rfl
  | cons c cs =>
    have hc : isWs c = false := by
      by_contra hcc
      rw [List.dropWhile_cons_of_pos (by simpa using hcc)] at h
      have := (List.dropWhile_sublist (l := cs) isWs).length_le
      rw [h] at this
      simp at this
    rw [upperL, List.map_cons]
    rw [List.dropWhile_cons_of_neg (by rw [isWs_upChar]; simp [hc])]

theorem stripL_dropWhile (l : List Char) : (stripL l).dropWhile isWs = stripL l := by
  rw [stripL]
  obtain ⟨pre, hpre⟩ := List.dropWhile_suffix (l := (l.dropWhile isWs).reverse) isWs
  have hd : ((l.dropWhile isWs).reverse.dropWhile isWs).reverse ++ pre.reverse
      = l.dropWhile isWs := by
    rw [← List.reverse_append, hpre, List.reverse_reverse]
  exact dropWhile_eq_self_append (by rw [hd]; exact dropWhile_isWs_idem l)

theorem stripL_reverse_dropWhile (l : List Char) :
    (stripL l).reverse.dropWhile isWs = (stripL l).reverse := by
  rw [stripL, List.reverse_reverse]
  exact dropWhile_isWs_idem _

theorem canonL_dropWhile (l : List Char) :
    (canonL l).dropWhile isWs = canonL l := by
  rw [canonL]
  exact dropWhile_isWs_despace (dropWhile_isWs_upper (stripL_dropWhile l))

theorem canonL_reverse_dropWhile (l : List Char) :
    (canonL l).reverse.dropWhile isWs = (canonL l).reverse := by
  rw [canonL, despaceL, ← List.filter_reverse, upperL, ← List.map_reverse]
  exact dropWhile_isWs_despace (dropWhile_isWs_upper (stripL_reverse_dropWhile l))

theorem stripL_canonL (l : List Char) : stripL (canonL l) = canonL l := by
  rw [stripL, canonL_dropWhile, canonL_reverse_dropWhile, List.reverse_reverse]

theorem upperL_canonL (l : List Char) : upperL (canonL l) = canonL l := by
  rw [canonL, despaceL_upperL, upperL_upperL, ← despaceL_upperL]

theorem despaceL_canonL (l : List Char) : despaceL (canonL l) = canonL l := by
  rw [canonL, despaceL_despaceL]

theorem canonL_canonL (l : List Char) : canonL (canonL l) = canonL l := by
  conv_lhs => rw [canonL, stripL_canonL, upperL_canonL, despaceL_canonL]

theorem enc_values_fixed : ∀ p ∈ ENC_MAP, normalize p.2 = p.2 := by decide

theorem contains_iff_str (l : List String) (a : String) :
    l.contains a = true ↔ a ∈ l := by
  simp [List.contains, List.elem_iff]

theorem normalize_idem (s : String) : normalize (normalize s) = normalize s := by
  by_cases hs : s = ""
  · subst hs; rfl
  · have hns : normalize s = lookupEnc (String.mk (canonL s.data)) := by
      rw [normalize, if_neg hs]
    rw [hns, lookupEnc]
    cases hf : ENC_MAP.find? (fun p => p.1 == String.mk (canonL s.data)) with
    | some p =>
      simp only [Option.map_some', Option.getD_some]
      exact enc_values_fixed p (List.mem_of_find?_eq_some hf)
    | none =>
      simp only [Option.map_none', Option.getD_none]
      by_cases hee : String.mk (canonL s.data) = ""
      · rw [hee]; rfl
      · rw [normalize, if_neg hee]
        have hmk : String.mk (canonL (String.mk (canonL s.data)).data)
            = String.mk (canonL s.data) := by
          show String.mk (canonL (canonL s.data)) = String.mk (canonL s.data)
          rw [canonL_canonL]
        rw [hmk, lookupEnc, hf]
        simp

theorem normFn_eq (c : String) :
    (if c = "" then "" else normalize c) = normalizeAmended c := by
  by_cases h : c = ""
  · rw [if_pos h, h]
    decide
  · rw [if_neg h, normalize, if_neg h, normalizeAmended]

theorem buildLoop_eq (cs : List String) : ∀ seen : List String,
    buildLoop cs seen =
      keepFirsts ((cs.map (fun c => if c = "" then "" else normalize c)).filter
        (fun n => n != "" && !(seen.contains n))) := by
  induction cs with
  | nil => intro seen; rfl
  | cons c cs ih =>
    intro seen
    rw [buildLoop]
    set n := if c = "" then "" else normalize c with hn
    by_cases h : n ≠ "" ∧ ¬ (n ∈ seen)
    · rw [if_pos h, ih (n :: seen)]
      have hcon : seen.contains n = false := by
        rw [← Bool.not_eq_true, contains_iff_str]
        exact h.2
      have hpred : (n != "" && !(seen.contains n)) = true := by
        simp only [Bool.and_eq_true, bne_iff_ne, ne_eq, hcon]
        exact ⟨h.1, rfl⟩
      rw [List.map_cons, List.filter_cons, hpred, if_pos rfl, keepFirsts_cons]
      apply congrArg (fun l => n :: l)
      apply congrArg keepFirsts
      rw [List.filter_filter]
      apply List.filter_congr
      intro m _
      rw [Bool.eq_iff_iff]
      simp only [Bool.and_eq_true, bne_iff_ne, ne_eq, Bool.not_eq_true',
        List.contains_cons, Bool.or_eq_false_iff, beq_eq_false_iff_ne]
      tauto
    · rw [if_neg h, ih seen]
      have hpred : (n != "" && !(seen.contains n)) = false := by
        by_cases hne : n = ""
        · simp [hne]
        · have hmem : n ∈ seen := by
            by_contra hc
            exact h ⟨hne, hc⟩
          have hcon : seen.contains n = true := (contains_iff_str _ _).mpr hmem
          rw [hcon]
          simp
      rw [List.map_cons, List.filter_cons, hpred]
      simp only [Bool.false_eq_true, if_false]

theorem buildCandidates_eq (dec det : String) :
    buildCandidates dec det = candidatesSpec normalizeAmended dec det := by
  rw [buildCandidates, buildLoop_eq, candidatesSpec]
  congr 1
  have hmap : (fun c => if c = "" then "" else normalize c) = normalizeAmended :=
    funext normFn_eq
  rw [hmap]
  apply List.filter_congr
  intro m _
  simp

/-- C9: encoding-name normalization is idempotent: for every string s,
normalize (normalize s) = normalize s, because every value of ENC_MAP is
a fixed point of normalization and any unrecognized name, once
canonicalized, is unchanged by a second application. -/
theorem C9_normalize_idempotent :
    (∀ s : String, normalize (normalize s) = normalize s) ∧
      (∀ p ∈ ENC_MAP, normalize p.2 = p.2) :=
  ⟨normalize_idem, enc_values_fixed⟩

/-- Witness for C9 at concrete inputs: a second normalization of a mixed
case alias with surrounding spaces changes nothing, and the table value
CP1252 is a fixed point. -/
theorem C9_witness :
    normalize (normalize " Windows-1252 ") = normalize " Windows-1252 " ∧
      normalize ("CP1252", "CP1252").2 = ("CP1252", "CP1252").2 :=
  ⟨C9_normalize_idempotent.1 " Windows-1252 ",
   C9_normalize_idempotent.2 ("CP1252", "CP1252") (by decide)⟩

/-- C1 (counterexample): the claim describes normalization as uppercasing,
stripping internal spaces and applying the alias table; the source
additionally strips leading and trailing whitespace, so on a declared
hint carrying a leading tab the candidate list differs from the claimed
one. -/
theorem C1_counterexample :
    buildCandidates "\tCP1252" "" ≠ candidatesSpec normalizeClaim "\tCP1252" "" := by
  decide

/-- C1 (amended): the resolver builds the candidate list by normalizing
the declared hint, the detected hint and the fixed fallback sequence in
that order, where normalization strips leading and trailing whitespace,
uppercases, removes spaces and maps through the alias table with
unrecognized names passing through; empty entries and duplicates are
dropped preserving first-occurrence order. -/
theorem C1_candidate_order (dec det : String) :
    buildCandidates dec det = candidatesSpec normalizeAmended dec det :=
  buildCandidates_eq dec det

theorem convert_accept (r : IconvRes) (h : convertWithIconv r ≠ []) :
    r = IconvRes.completed 0 (convertWithIconv r) ∧
      isValidUtf8 (convertWithIconv r) = true := by
  cases r with
  | timeout => exact absurd rfl h
  | exn => exact absurd rfl h
  | completed rc out =>
    rw [convertWithIconv] at h ⊢
    by_cases hc : rc = 0 ∧ isValidUtf8 out = true
    · rw [if_pos hc] at h ⊢
      exact ⟨by rw [hc.1], hc.2⟩
    · rw [if_neg hc] at h
      exact absurd rfl h

theorem tryCands_sound (oracle : Iconv) (data : List (Fin 256)) (isHtml dry : Bool) :
    ∀ (l : List String) (r : Outcome) (w : Option (List Char)),
      tryCands oracle data isHtml dry l = some (r, w) →
      ∃ e ∈ l, convertWithIconv (oracle data e) ≠ [] ∧
        ((dry = true ∧ r = .okDry e ∧ w = none) ∨
         (dry = false ∧ ∃ text,
           utf8Decode (convertWithIconv (oracle data e)) = some text ∧
           r = .ok e ∧ w = some (if isHtml then ensureMetaUtf8 text true else text))) := by
  intro l
  induction l with
  | nil => intro r w h; simp [tryCands] at h
  | cons enc rest ih =>
    intro r w h
    simp only [tryCands] at h
    by_cases hout : convertWithIconv (oracle data enc) = []
    · rw [if_pos hout] at h
      obtain ⟨e, he, hrest⟩ := ih r w h
      exact ⟨e, List.mem_cons_of_mem _ he, hrest⟩
    · rw [if_neg hout] at h
      cases dry with
      | true =>
        rw [if_pos rfl] at h
        simp only [Option.some.injEq, Prod.mk.injEq] at h
        exact ⟨enc, List.mem_cons_self _ _, hout,
          Or.inl ⟨rfl, h.1.symm, h.2.symm⟩⟩
      | false =>
        rw [if_neg (by simp)] at h
        cases hdec : utf8Decode (convertWithIconv (oracle data enc)) with
        | none =>
          rw [hdec] at h
          obtain ⟨e, he, hrest⟩ := ih r w h
          exact ⟨e, List.mem_cons_of_mem _ he, hrest⟩
        | some text =>
          rw [hdec] at h
          simp only [Option.some.injEq, Prod.mk.injEq] at h
          exact ⟨enc, List.mem_cons_self _ _, hout,
            Or.inr ⟨rfl, text, hdec, h.1.symm, h.2.symm⟩⟩

theorem tryCands_first (oracle : Iconv) (data : List (Fin 256)) (isHtml : Bool) :
    ∀ (pre : List String) (enc : String) (rest : List String),
      (∀ e ∈ pre, convertWithIconv (oracle data e) = []) →
      convertWithIconv (oracle data enc) ≠ [] →
      ∃ w, tryCands oracle data isHtml false (pre ++ enc :: rest)
        = some (.ok enc, some w) := by
  intro pre
  induction pre with
  | nil =>
    intro enc rest _ henc
    simp only [List.nil_append, tryCands]
    rw [if_neg henc, if_neg (by simp)]
    have hval := (convert_accept _ henc).2
    rw [isValidUtf8] at hval
    obtain ⟨text, htext⟩ := Option.isSome_iff_exists.mp hval
    rw [htext]
    exact ⟨if isHtml then ensureMetaUtf8 text true else text, rfl⟩
  | cons e pre ih =>
    intro enc rest hpre henc
    simp only [List.cons_append, tryCands]
    rw [if_pos (hpre e (List.mem_cons_self _ _))]
    exact ih enc rest (fun x hx => hpre x (List.mem_cons_of_mem _ hx)) henc

theorem latin1Decode_total : ∀ data : List (Fin 256), ∃ s, latin1Decode data = some s := by
  intro data
  induction data with
  | nil => exact ⟨[], rfl⟩
  | cons b bs ih =>
    obtain ⟨s, hs⟩ := ih
    have hvalid : (b.val).isValidChar := Or.inl (by have := b.isLt; omega)
    have hb : charOfCp b.val = some (Char.ofNatAux b.val hvalid) := by
      rw [charOfCp, dif_pos hvalid]
    rw [latin1Decode] at hs
    refine ⟨Char.ofNatAux b.val hvalid :: s, ?_⟩
    rw [latin1Decode, List.mapM_cons, hb, hs]
    rfl

theorem convertPhase_not_fail (oracle : Iconv) (data : List (Fin 256)) (dec det : String)
    (isHtml dry : Bool) : ((convertPhase oracle data dec det isHtml dry).1).isFail = false := by
  rw [convertPhase]
  cases htc : tryCands oracle data isHtml dry (buildCandidates dec det) with
  | some r =>
    obtain ⟨e, _, _, hshape⟩ := tryCands_sound oracle data isHtml dry _ r.1 r.2 (by rw [htc])
    rcases hshape with ⟨_, hr, _⟩ | ⟨_, _, _, hr, _⟩ <;> rw [hr] <;> rfl
  | none =>
    obtain ⟨s, hs⟩ := latin1Decode_total data
    rw [hs]
    rfl

theorem processFile_not_fail (oracle : Iconv) (data : List (Fin 256)) (det : String)
    (isHtml dry : Bool) : ((processFile oracle data det isHtml dry).1).isFail = false := by
  rw [processFile]
  cases utf8Decode data with
  | some t =>
    dsimp only
    by_cases hdec : declaredCharset data = "" ∨ upperS (declaredCharset data) ∈ utf8Names
    · rw [if_pos hdec]
      rfl
    · rw [if_neg hdec]
      exact convertPhase_not_fail ..
  | none =>
    dsimp only
    exact convertPhase_not_fail ..

theorem convertPhase_dry_none (oracle : Iconv) (data : List (Fin 256)) (dec det : String)
    (isHtml : Bool) : (convertPhase oracle data dec det isHtml true).2 = none := by
  rw [convertPhase]
  cases htc : tryCands oracle data isHtml true (buildCandidates dec det) with
  | some r =>
    obtain ⟨e, _, _, hshape⟩ := tryCands_sound oracle data isHtml true _ r.1 r.2 (by rw [htc])
    rcases hshape with ⟨_, _, hw⟩ | ⟨hfalse, _⟩
    · exact hw
    · exact absurd hfalse (by simp)
  | none =>
    obtain ⟨s, hs⟩ := latin1Decode_total data
    rw [hs]
    rfl

theorem processFile_dry_none (oracle : Iconv) (data : List (Fin 256)) (det : String)
    (isHtml : Bool) : (processFile oracle data det isHtml true).2 = none := by
  rw [processFile]
  cases utf8Decode data with
  | some t =>
    dsimp only
    by_cases hdec : declaredCharset data = "" ∨ upperS (declaredCharset data) ∈ utf8Names
    · rw [if_pos hdec]
      simp
    · rw [if_neg hdec]
      exact convertPhase_dry_none ..
  | none =>
    dsimp only
    exact convertPhase_dry_none ..

theorem processFile_real_no_okDry (oracle : Iconv) (data : List (Fin 256)) (det : String)
    (isHtml : Bool) (enc : String) :
    (processFile oracle data det isHtml false).1 ≠ Outcome.okDry enc := by
  rw [processFile]
  cases utf8Decode data with
  | some t =>
    dsimp only
    by_cases hdec : declaredCharset data = "" ∨ upperS (declaredCharset data) ∈ utf8Names
    · rw [if_pos hdec]
      simp
    · rw [if_neg hdec]
      rw [convertPhase]
      cases htc : tryCands oracle data isHtml false (buildCandidates (declaredCharset data) det) with
      | some r =>
        obtain ⟨e, _, _, hshape⟩ := tryCands_sound oracle data isHtml false _ r.1 r.2 (by rw [htc])
        rcases hshape with ⟨htrue, _⟩ | ⟨_, _, _, hr, _⟩
        · exact absurd htrue (by simp)
        · rw [hr]; simp
      | none =>
        obtain ⟨s, hs⟩ := latin1Decode_total data
        rw [hs]
        simp
  | none =>
    dsimp only
    rw [convertPhase]
    cases htc : tryCands oracle data isHtml false (buildCandidates (declaredCharset data) det) with
    | some r =>
      obtain ⟨e, _, _, hshape⟩ := tryCands_sound oracle data isHtml false _ r.1 r.2 (by rw [htc])
      rcases hshape with ⟨htrue, _⟩ | ⟨_, _, _, hr, _⟩
      · exact absurd htrue (by simp)
      · rw [hr]; simp
    | none =>
      obtain ⟨s, hs⟩ := latin1Decode_total data
      rw [hs]
      simp

theorem processFile_skip (oracle : Iconv) (data : List (Fin 256)) (det : String)
    (isHtml dry : Bool) (t : List Char)
    (h1 : utf8Decode data = some t)
    (h2 : declaredCharset data = "" ∨ upperS (declaredCharset data) ∈ utf8Names) :
    processFile oracle data det isHtml dry =
      (.skip, if isHtml && !dry then some (ensureMetaUtf8 t true) else none) := by
  rw [processFile, h1]
  dsimp only
  rw [if_pos h2]

/-- C3: a conversion result is accepted only when the external process
completed with return code zero within the timeout and its output is
re-verified to be valid UTF-8; a timeout or error yields the empty
sentinel and the loop silently advances, and the first accepted
candidate yields the Converted outcome carrying that candidate. -/
theorem C3_transcoder_acceptance :
    (∀ r : IconvRes, convertWithIconv r ≠ [] →
      r = IconvRes.completed 0 (convertWithIconv r) ∧
        isValidUtf8 (convertWithIconv r) = true) ∧
    (∀ (oracle : Iconv) (data : List (Fin 256)) (isHtml : Bool)
        (pre : List String) (enc : String) (rest : List String),
      (∀ e ∈ pre, convertWithIconv (oracle data e) = []) →
      convertWithIconv (oracle data enc) ≠ [] →
      ∃ w, tryCands oracle data isHtml false (pre ++ enc :: rest)
        = some (.ok enc, some w)) :=
  ⟨convert_accept, fun oracle data isHtml => tryCands_first oracle data isHtml⟩

/-- Witness for C3 at a concrete environment: a completed conversion of
one ASCII byte is accepted, and with a first candidate that errors the
second candidate is the one reported. -/
theorem C3_witness :
    (IconvRes.completed 0 [(65 : Fin 256)]
        = IconvRes.completed 0 (convertWithIconv (IconvRes.completed 0 [(65 : Fin 256)])) ∧
      isValidUtf8 (convertWithIconv (IconvRes.completed 0 [(65 : Fin 256)])) = true) ∧
    (∃ w, tryCands
        (fun _ e => if e = "B" then IconvRes.completed 0 [(65 : Fin 256)] else IconvRes.exn)
        [] false false (["A"] ++ "B" :: [])
      = some (.ok "B", some w)) :=
  ⟨C3_transcoder_acceptance.1 _ (by decide),
   C3_transcoder_acceptance.2 _ [] false ["A"] "B" [] (by decide) (by decide)⟩

/-- C4: when the raw bytes decode as valid UTF-8 and the declared hint is
absent or denotes UTF-8 or ASCII, the outcome is Skipped with no
conversion attempted (the result does not consult the iconv oracle), and
for a markup file in a non-dry run the metadata-normalized text is
rewritten. -/
theorem C4_skip_short_circuit (oracle : Iconv) (data : List (Fin 256)) (det : String)
    (isHtml dry : Bool) (t : List Char)
    (h1 : utf8Decode data = some t)
    (h2 : declaredCharset data = "" ∨ upperS (declaredCharset data) ∈ utf8Names) :
    processFile oracle data det isHtml dry =
      (.skip, if isHtml && !dry then some (ensureMetaUtf8 t true) else none) :=
  processFile_skip oracle data det isHtml dry t h1 h2

/-- Witness for C4: a one-byte ASCII file with no declared charset is
skipped and, as markup in a non-dry run, rewritten normalized. -/
theorem C4_witness :
    utf8Decode [(104 : Fin 256)] = some ['h'] ∧
    (declaredCharset [(104 : Fin 256)] = "" ∨
      upperS (declaredCharset [(104 : Fin 256)]) ∈ utf8Names) ∧
    processFile (fun _ _ => IconvRes.exn) [(104 : Fin 256)] "" true false
      = (.skip, if true && !false then some (ensureMetaUtf8 ['h'] true) else none) :=
  ⟨by decide, Or.inl (by decide),
   C4_skip_short_circuit (fun _ _ => IconvRes.exn) [(104 : Fin 256)] "" true false ['h']
     (by decide) (Or.inl (by decide))⟩

/-- C6 (counterexample): the claim says a successful would-convert
outcome is reported distinctly from a real conversion's outcome, but on
the latin-1 fallback path a dry run reports the very same OK* outcome as
the real run that writes the file, here on the single byte 0xFF with an
erroring converter. -/
theorem C6_counterexample :
    (processFile (fun _ _ => IconvRes.exn) [(255 : Fin 256)] "" false true).1
      = (processFile (fun _ _ => IconvRes.exn) [(255 : Fin 256)] "" false false).1 ∧
    (processFile (fun _ _ => IconvRes.exn) [(255 : Fin 256)] "" false false).2 ≠ none := by
  decide

/-- C6 (amended): in dry-run mode processing never writes, and a
candidate-conversion success is reported as the distinct OK-DRY outcome,
which a non-dry run never reports; the fallback path, however, reports
the same OK* outcome in both modes. -/
theorem C6_dry_run_no_write :
    (∀ (oracle : Iconv) (data : List (Fin 256)) (det : String) (isHtml : Bool),
      (processFile oracle data det isHtml true).2 = none) ∧
    (∀ (oracle : Iconv) (data : List (Fin 256)) (det : String) (isHtml : Bool) (enc : String),
      (processFile oracle data det isHtml false).1 ≠ Outcome.okDry enc) :=
  ⟨fun oracle data det isHtml => processFile_dry_none oracle data det isHtml,
   fun oracle data det isHtml enc => processFile_real_no_okDry oracle data det isHtml enc⟩

/-- C7: the last-resort latin-1 decode succeeds on every byte sequence,
so the fallback always produces output and the Failed outcome is
unreachable in process_file. -/
theorem C7_fallback_total :
    (∀ data : List (Fin 256), ∃ s, latin1Decode data = some s) ∧
    (∀ (oracle : Iconv) (data : List (Fin 256)) (det : String) (isHtml dry : Bool),
      ((processFile oracle data det isHtml dry).1).isFail = false) :=
  ⟨latin1Decode_total, processFile_not_fail⟩

theorem runAll_lines (rs : List FileRun)
    (h : ∀ r ∈ rs, r.2 ≠ Except.error PyExc.keyboardInterrupt) :
    runAll rs = rs.map lineFor := by
  induction rs with
  | nil => rfl
  | cons r rest ih =>
    obtain ⟨f, res⟩ := r
    cases res with
    | ok m =>
      rw [List.map_cons]
      exact congrArg _ (ih (fun x hx => h x (List.mem_cons_of_mem _ hx)))
    | error e =>
      cases e with
      | keyboardInterrupt =>
        exact absurd rfl (h (f, Except.error PyExc.keyboardInterrupt)
          (List.mem_cons_self _ _))
      | other msg =>
        rw [List.map_cons]
        exact congrArg _ (ih (fun x hx => h x (List.mem_cons_of_mem _ hx)))

/-- C8: when no per-file result is an operator interrupt, the reporting
loop of main emits exactly one line per enumerated file, an ERROR line
carrying the description for a file whose processing raised, and the run
continues through the whole list. -/
theorem C8_per_file_boundary (rs : List FileRun)
    (h : ∀ r ∈ rs, r.2 ≠ Except.error PyExc.keyboardInterrupt) :
    runAll rs = rs.map lineFor ∧ (runAll rs).length = rs.length := by
  have he := runAll_lines rs h
  exact ⟨he, by rw [he, List.length_map]⟩

/-- Witness for C8: a run over one succeeding file and one erroring file
reports exactly those two lines. -/
theorem C8_witness :
    runAll [(("a.html" : String), Except.ok "SKIP a"),
            ("b.css", Except.error (PyExc.other "boom"))]
      = [(("a.html" : String), Except.ok "SKIP a"),
         ("b.css", Except.error (PyExc.other "boom"))].map lineFor ∧
    (runAll [(("a.html" : String), Except.ok "SKIP a"),
             ("b.css", Except.error (PyExc.other "boom"))]).length = 2 :=
  C8_per_file_boundary
    [(("a.html" : String), Except.ok "SKIP a"),
     ("b.css", Except.error (PyExc.other "boom"))]
    (by intro r hr; fin_cases hr <;> simp)

/-- C10: for non-markup files the metadata normalizer is the identity,
and the persisted content is exactly the decoded conversion output or
the latin-1 fallback text, with no meta rewriting. -/
theorem C10_non_markup_identity :
    (∀ t : List Char, ensureMetaUtf8 t false = t) ∧
    (∀ (oracle : Iconv) (data : List (Fin 256)) (det : String) (dry : Bool),
      (processFile oracle data det false dry).2 = none ∨
      (∃ e ∈ buildCandidates (declaredCharset data) det, ∃ text,
        utf8Decode (convertWithIconv (oracle data e)) = some text ∧
        (processFile oracle data det false dry).2 = some text) ∨
      (∃ text, latin1Decode data = some text ∧
        (processFile oracle data det false dry).2 = some text)) := by
  constructor
  · intro t
    rfl
  · intro oracle data det dry
    rw [processFile]
    cases hdec : utf8Decode data with
    | some t =>
      dsimp only
      by_cases hcond : declaredCharset data = ""
          ∨ upperS (declaredCharset data) ∈ utf8Names
      · rw [if_pos hcond]
        left
        simp
      · rw [if_neg hcond]
        rw [convertPhase]
        cases htc : tryCands oracle data false dry
            (buildCandidates (declaredCharset data) det) with
        | some r =>
          obtain ⟨e, he, hne, hshape⟩ :=
            tryCands_sound oracle data false dry _ r.1 r.2 (by rw [htc])
          rcases hshape with ⟨_, _, hw⟩ | ⟨_, text, hdec2, _, hw⟩
          · left
            exact hw
          · right; left
            refine ⟨e, he, text, hdec2, ?_⟩
            dsimp only
            rw [hw]
            simp
        | none =>
          obtain ⟨s, hs⟩ := latin1Decode_total data
          rw [hs]
          dsimp only
          cases dry with
          | true => left; rfl
          | false =>
            right; right
            exact ⟨s, rfl, by simp⟩
    | none =>
      dsimp only
      rw [convertPhase]
      cases htc : tryCands oracle data false dry
          (buildCandidates (declaredCharset data) det) with
      | some r =>
        obtain ⟨e, he, hne, hshape⟩ :=
          tryCands_sound oracle data false dry _ r.1 r.2 (by rw [htc])
        rcases hshape with ⟨_, _, hw⟩ | ⟨_, text, hdec2, _, hw⟩
        · left
          exact hw
        · right; left
          refine ⟨e, he, text, hdec2, ?_⟩
          dsimp only
          rw [hw]
          simp
      | none =>
        obtain ⟨s, hs⟩ := latin1Decode_total data
        rw [hs]
        dsimp only
        cases dry with
        | true => left; rfl
        | false =>
          right; right
          exact ⟨s, rfl, by simp⟩

theorem hasUtf8Meta_canon_head (b : List Char) :
    hasUtf8Meta (canonicalMeta ++ b) = true := rfl

theorem hasUtf8Meta_canon_append (a b : List Char) :
    hasUtf8Meta (a ++ canonicalMeta ++ b) = true := by
  induction a with
  | nil =>
    rw [List.nil_append]
    exact hasUtf8Meta_canon_head b
  | cons c a ih =>
    simp only [List.append_assoc] at ih ⊢
    rw [List.cons_append, hasUtf8Meta.eq_def]
    dsimp only
    rw [ih, Bool.or_true]

theorem subF_id_or_canon (matchAt : List Char → Option (List Char)) :
    ∀ s : List Char, subF matchAt s.length s = s ∨
      ∃ a b, subF matchAt s.length s = a ++ canonicalMeta ++ b := by
  intro s
  induction s with
  | nil => left; rfl
  | cons c cs ih =>
    simp only [List.length_cons, subF]
    cases hm : matchAt (c :: cs) with
    | some rest =>
      right
      exact ⟨[], subF matchAt cs.length rest, by dsimp only; rw [List.nil_append]⟩
    | none =>
      rcases ih with hid | ⟨a, b, hab⟩
      · left
        dsimp only
        rw [hid]
      · right
        refine ⟨c :: a, b, ?_⟩
        dsimp only
        rw [hab]
        simp [List.cons_append, List.append_assoc]

theorem sub1_id_or_canon (s : List Char) :
    sub1 s = s ∨ ∃ a b, sub1 s = a ++ canonicalMeta ++ b :=
  subF_id_or_canon sub1MatchAt s

theorem sub2_id_or_canon (s : List Char) :
    sub2 s = s ∨ ∃ a b, sub2 s = a ++ canonicalMeta ++ b :=
  subF_id_or_canon sub2MatchAt s

theorem insert_gives_utf8 : ∀ t : List Char, headTagPresent t = true →
    hasUtf8Meta (insertAfterHead t) = true := by
  intro t
  induction t with
  | nil => intro h; simp [headTagPresent] at h
  | cons c cs ih =>
    intro h
    rw [insertAfterHead]
    cases hm : headMatchAt (c :: cs) with
    | some p =>
      have he : ("<head".data) ++ p.1 ++ '>' :: '\n' :: (canonicalMeta ++ p.2)
          = (("<head".data) ++ p.1 ++ ['>', '\n']) ++ canonicalMeta ++ p.2 := by
        simp [List.append_assoc]
      dsimp only
      rw [he]
      exact hasUtf8Meta_canon_append _ _
    | none =>
      rw [headTagPresent, hm] at h
      simp only [Option.isSome_none, Bool.false_or] at h
      rw [hasUtf8Meta, ih h, Bool.or_true]

theorem subs_id_of_no_utf8 (t : List Char)
    (h : hasUtf8Meta (sub2 (sub1 t)) = false) : sub2 (sub1 t) = t := by
  rcases sub1_id_or_canon t with h1 | ⟨a, b, hab⟩
  · rcases sub2_id_or_canon (sub1 t) with h2 | ⟨a, b, hab⟩
    · rw [h2, h1]
    · rw [hab, hasUtf8Meta_canon_append] at h
      exact absurd h (by simp)
  · rcases sub2_id_or_canon (sub1 t) with h2 | ⟨a2, b2, hab2⟩
    · rw [h2, hab, hasUtf8Meta_canon_append] at h
      exact absurd h (by simp)
    · rw [hab2, hasUtf8Meta_canon_append] at h
      exact absurd h (by simp)

theorem head_gives_utf8 (t : List Char) (hh : headTagPresent t = true) :
    hasUtf8Meta (ensureMetaUtf8 t true) = true := by
  rw [ensureMetaUtf8]
  dsimp only
  by_cases h2 : hasUtf8Meta (sub2 (sub1 t)) = true
  · rw [if_pos h2]
    exact h2
  · rw [if_neg h2]
    have hid : sub2 (sub1 t) = t :=
      subs_id_of_no_utf8 t (by simpa using h2)
    rw [hid]
    exact insert_gives_utf8 t hh

theorem processFile_html_write (oracle : Iconv) (data : List (Fin 256)) (det : String)
    (o : Outcome) (w : Option (List Char))
    (h : processFile oracle data det true false = (o, w)) (hf : o.isFail = false) :
    ∃ t, w = some (ensureMetaUtf8 t true) := by
  rw [processFile] at h
  cases hdec : utf8Decode data with
  | some t =>
    rw [hdec] at h
    dsimp only at h
    by_cases hcond : declaredCharset data = "" ∨ upperS (declaredCharset data) ∈ utf8Names
    · rw [if_pos hcond] at h
      simp only [Prod.mk.injEq] at h
      exact ⟨t, by rw [← h.2]; rfl⟩
    · rw [if_neg hcond, convertPhase] at h
      cases htc : tryCands oracle data true false
          (buildCandidates (declaredCharset data) det) with
      | some r =>
        rw [htc] at h
        dsimp only at h
        obtain ⟨e, he, hne, hshape⟩ :=
          tryCands_sound oracle data true false _ r.1 r.2 (by rw [htc])
        rcases hshape with ⟨hdry, _⟩ | ⟨_, text, _, _, hw⟩
        · exact absurd hdry (by simp)
        · refine ⟨text, ?_⟩
          have hw2 : w = r.2 := by rw [h]
          rw [hw2, hw]
          rfl
      | none =>
        rw [htc] at h
        obtain ⟨s, hs⟩ := latin1Decode_total data
        rw [hs] at h
        dsimp only at h
        simp only [Prod.mk.injEq] at h
        exact ⟨s, by rw [← h.2]; rfl⟩
  | none =>
    rw [hdec] at h
    dsimp only at h
    rw [convertPhase] at h
    cases htc : tryCands oracle data true false
        (buildCandidates (declaredCharset data) det) with
    | some r =>
      rw [htc] at h
      dsimp only at h
      obtain ⟨e, he, hne, hshape⟩ :=
        tryCands_sound oracle data true false _ r.1 r.2 (by rw [htc])
      rcases hshape with ⟨hdry, _⟩ | ⟨_, text, _, _, hw⟩
      · exact absurd hdry (by simp)
      · refine ⟨text, ?_⟩
        have hw2 : w = r.2 := by rw [h]
        rw [hw2, hw]
        rfl
    | none =>
      rw [htc] at h
      obtain ⟨s, hs⟩ := latin1Decode_total data
      rw [hs] at h
      dsimp only at h
      simp only [Prod.mk.injEq] at h
      exact ⟨s, by rw [← h.2]; rfl⟩

/-- C2 (counterexample): a markup file consisting of the single letter h
is processed to the non-Failed Skipped outcome in a non-dry run, yet the
persisted text contains no UTF-8 charset declaration at all, because the
file has no head tag for the insertion to target; this contradicts the
claimed exactly-one declaration placed as the head's first child. -/
theorem C2_counterexample :
    processFile (fun _ _ => IconvRes.exn) [(104 : Fin 256)] "" true false
      = (.skip, some (ensureMetaUtf8 ['h'] true)) ∧
    Outcome.skip.isFail = false ∧
    hasUtf8Meta (ensureMetaUtf8 ['h'] true) = false := by
  decide

/-- C2 (amended): for every markup file whose processing ends in any
outcome except Failed in a non-dry run, the persisted text is the
metadata-normalized decoded text; whenever a text contains an opening
head tag, its normalization contains at least one UTF-8 charset
declaration; and when no UTF-8 declaration is present after the
replacement substitutions, the canonical declaration is inserted
immediately after the first opening head tag. -/
theorem C2_markup_normalization :
    (∀ (oracle : Iconv) (data : List (Fin 256)) (det : String)
        (o : Outcome) (w : Option (List Char)),
      processFile oracle data det true false = (o, w) → o.isFail = false →
      ∃ t, w = some (ensureMetaUtf8 t true)) ∧
    (∀ t : List Char, headTagPresent t = true →
      hasUtf8Meta (ensureMetaUtf8 t true) = true) ∧
    (∀ t : List Char, hasUtf8Meta (sub2 (sub1 t)) = false →
      ensureMetaUtf8 t true = insertAfterHead (sub2 (sub1 t))) := by
  refine ⟨processFile_html_write, head_gives_utf8, ?_⟩
  intro t h
  rw [ensureMetaUtf8, if_pos rfl]
  dsimp only
  rw [if_neg (by simp [h])]

/-- Witness for C2 at concrete inputs: the Skipped run on the one-letter
markup file persists its normalized text, and a text with a head tag
gains a UTF-8 declaration. -/
theorem C2_witness :
    (∃ t, some (ensureMetaUtf8 ['h'] true) = some (ensureMetaUtf8 t true)) ∧
    hasUtf8Meta (ensureMetaUtf8 ("<head></head>".data) true) = true :=
  ⟨C2_markup_normalization.1 (fun _ _ => IconvRes.exn) [(104 : Fin 256)] "" .skip
      (some (ensureMetaUtf8 ['h'] true)) (by decide) (by decide),
   C2_markup_normalization.2.1 ("<head></head>".data) (by decide)⟩

theorem utf8Step_length : ∀ (l : List (Fin 256)) (p : Char × List (Fin 256)),
    utf8Step l = some p → p.2.length < l.length := by
  intro l p h
  cases l with
  | nil => simp [utf8Step] at h
  | cons b0 rest =>
    delta utf8Step at h
    dsimp only at h
    repeat' split at h
    all_goals
      first
        | (simp only [Option.some.injEq] at h
           subst h
           dsimp only
           simp only [List.length_cons]
           omega)
        | simp at h

theorem utf8DecodeF_fuel : ∀ fuel : Nat, ∀ l : List (Fin 256), l.length ≤ fuel →
    utf8DecodeF fuel l = utf8Decode l := by
  intro fuel
  induction fuel using Nat.strong_induction_on with
  | _ fuel ih =>
    intro l hl
    match fuel, l with
    | 0, [] => rfl
    | 0, _ :: _ => simp at hl
    | f + 1, [] => rfl
    | f + 1, b0 :: rest =>
      simp only [List.length_cons] at hl
      rw [utf8DecodeF, utf8Decode, List.length_cons, utf8DecodeF]
      cases hs : utf8Step (b0 :: rest) with
      | none => rfl
      | some p =>
        obtain ⟨c, r⟩ := p
        have hp := utf8Step_length _ _ hs
        simp only [List.length_cons] at hp
        dsimp only at hp ⊢
        rw [ih f (by omega) r (by omega), ih rest.length (by omega) r (by omega)]

theorem utf8Decode_cons_step (l : List (Fin 256)) (c : Char) (r : List (Fin 256))
    (h : utf8Step l = some (c, r)) :
    utf8Decode l = (utf8Decode r).map (fun cs => c :: cs) := by
  cases l with
  | nil => simp [utf8Step] at h
  | cons b0 rest =>
    rw [utf8Decode, List.length_cons, utf8DecodeF, h]
    try dsimp only
    have hr := utf8Step_length _ _ h
    simp only [List.length_cons] at hr
    try dsimp only at hr
    rw [utf8DecodeF_fuel rest.length r (by omega)]

theorem utf8Step_one (b0 : Fin 256) (rest : List (Fin 256)) (h : b0.val ≤ 0x7F) :
    utf8Step (b0 :: rest) = some (Char.ofNat b0.val, rest) := by
  delta utf8Step
  simp only []
  rw [if_pos h]

theorem utf8Step_two (b0 b1 : Fin 256) (rest : List (Fin 256))
    (h0 : ¬ b0.val ≤ 0x7F) (h1 : 0xC2 ≤ b0.val ∧ b0.val ≤ 0xDF)
    (h2 : isCont b1 = true) :
    utf8Step (b0 :: b1 :: rest)
      = some (Char.ofNat ((b0.val - 0xC0) * 64 + (b1.val - 0x80)), rest) := by
  delta utf8Step
  simp only []
  rw [if_neg h0, if_pos h1]
  try simp only []
  rw [if_pos h2]

theorem utf8Step_three (b0 b1 b2 : Fin 256) (rest : List (Fin 256))
    (h0 : ¬ b0.val ≤ 0x7F) (h1 : ¬ (0xC2 ≤ b0.val ∧ b0.val ≤ 0xDF))
    (h2 : 0xE0 ≤ b0.val ∧ b0.val ≤ 0xEF)
    (h3 : (if b0.val = 0xE0 then 0xA0 ≤ b1.val ∧ b1.val ≤ 0xBF
        else if b0.val = 0xED then 0x80 ≤ b1.val ∧ b1.val ≤ 0x9F
        else isCont b1 = true) ∧ isCont b2 = true) :
    utf8Step (b0 :: b1 :: b2 :: rest)
      = some (Char.ofNat
          ((b0.val - 0xE0) * 4096 + (b1.val - 0x80) * 64 + (b2.val - 0x80)), rest) := by
  delta utf8Step
  simp only []
  rw [if_neg h0, if_neg h1, if_pos h2]
  try simp only []
  rw [if_pos h3]

theorem utf8Step_four (b0 b1 b2 b3 : Fin 256) (rest : List (Fin 256))
    (h0 : ¬ b0.val ≤ 0x7F) (h1 : ¬ (0xC2 ≤ b0.val ∧ b0.val ≤ 0xDF))
    (h2 : ¬ (0xE0 ≤ b0.val ∧ b0.val ≤ 0xEF))
    (h3 : 0xF0 ≤ b0.val ∧ b0.val ≤ 0xF4)
    (h4 : (if b0.val = 0xF0 then 0x90 ≤ b1.val ∧ b1.val ≤ 0xBF
        else if b0.val = 0xF4 then 0x80 ≤ b1.val ∧ b1.val ≤ 0x8F
        else isCont b1 = true) ∧ isCont b2 = true ∧ isCont b3 = true) :
    utf8Step (b0 :: b1 :: b2 :: b3 :: rest)
      = some (Char.ofNat
          ((b0.val - 0xF0) * 262144 + (b1.val - 0x80) * 4096
            + (b2.val - 0x80) * 64 + (b3.val - 0x80)), rest) := by
  delta utf8Step
  simp only []
  rw [if_neg h0, if_neg h1, if_neg h2, if_pos h3]
  try simp only []
  rw [if_pos h4]

theorem utf8Decode_encodeCp (n : Nat) (hn : n < 0x110000)
    (hsur : n < 0xD800 ∨ 0xE000 ≤ n) (rest : List (Fin 256)) :
    utf8Decode (encodeCp n hn ++ rest)
      = (utf8Decode rest).map (fun cs => Char.ofNat n :: cs) := by
  rw [encodeCp]
  by_cases h1 : n ≤ 0x7F
  · rw [dif_pos h1]
    simp only [List.cons_append, List.nil_append]
    rw [utf8Decode_cons_step _ _ _ (utf8Step_one ⟨n, by omega⟩ rest h1)]
  · by_cases h2 : n ≤ 0x7FF
    · rw [dif_neg h1, dif_pos h2]
      simp only [List.cons_append, List.nil_append]
      rw [utf8Decode_cons_step _ _ _
        (utf8Step_two ⟨0xC0 + n / 64, by omega⟩ ⟨0x80 + n % 64, by omega⟩ rest
          (show ¬ 0xC0 + n / 64 ≤ 0x7F by omega)
          (show 0xC2 ≤ 0xC0 + n / 64 ∧ 0xC0 + n / 64 ≤ 0xDF by omega)
          (show isCont ⟨0x80 + n % 64, by omega⟩ = true by
            simp only [isCont, decide_eq_true_eq]
            omega))]
      have harg : (0xC0 + n / 64 - 0xC0) * 64 + (0x80 + n % 64 - 0x80) = n := by omega
      dsimp only
      rw [harg]
    · by_cases h3 : n ≤ 0xFFFF
      · rw [dif_neg h1, dif_neg h2, dif_pos h3]
        simp only [List.cons_append, List.nil_append]
        rw [utf8Decode_cons_step _ _ _
          (utf8Step_three ⟨0xE0 + n / 4096, by omega⟩ ⟨0x80 + n / 64 % 64, by omega⟩
            ⟨0x80 + n % 64, by omega⟩ rest
            (show ¬ 0xE0 + n / 4096 ≤ 0x7F by omega)
            (show ¬ (0xC2 ≤ 0xE0 + n / 4096 ∧ 0xE0 + n / 4096 ≤ 0xDF) by omega)
            (show 0xE0 ≤ 0xE0 + n / 4096 ∧ 0xE0 + n / 4096 ≤ 0xEF by omega)
            (show (if 0xE0 + n / 4096 = 0xE0 then
                  0xA0 ≤ 0x80 + n / 64 % 64 ∧ 0x80 + n / 64 % 64 ≤ 0xBF
                else if 0xE0 + n / 4096 = 0xED then
                  0x80 ≤ 0x80 + n / 64 % 64 ∧ 0x80 + n / 64 % 64 ≤ 0x9F
                else isCont ⟨0x80 + n / 64 % 64, by omega⟩ = true) ∧
                isCont ⟨0x80 + n % 64, by omega⟩ = true by
              constructor
              · split_ifs with hE hD
                · omega
                · rcases hsur with hs | hs <;> omega
                · simp only [isCont, decide_eq_true_eq]
                  omega
              · simp only [isCont, decide_eq_true_eq]
                omega))]
        have harg : (0xE0 + n / 4096 - 0xE0) * 4096 + (0x80 + n / 64 % 64 - 0x80) * 64
            + (0x80 + n % 64 - 0x80) = n := by omega
        dsimp only
        rw [harg]
      · rw [dif_neg h1, dif_neg h2, dif_neg h3]
        simp only [List.cons_append, List.nil_append]
        rw [utf8Decode_cons_step _ _ _
          (utf8Step_four ⟨0xF0 + n / 262144, by omega⟩ ⟨0x80 + n / 4096 % 64, by omega⟩
            ⟨0x80 + n / 64 % 64, by omega⟩ ⟨0x80 + n % 64, by omega⟩ rest
            (show ¬ 0xF0 + n / 262144 ≤ 0x7F by omega)
            (show ¬ (0xC2 ≤ 0xF0 + n / 262144 ∧ 0xF0 + n / 262144 ≤ 0xDF) by omega)
            (show ¬ (0xE0 ≤ 0xF0 + n / 262144 ∧ 0xF0 + n / 262144 ≤ 0xEF) by omega)
            (show 0xF0 ≤ 0xF0 + n / 262144 ∧ 0xF0 + n / 262144 ≤ 0xF4 by omega)
            (show (if 0xF0 + n / 262144 = 0xF0 then
                  0x90 ≤ 0x80 + n / 4096 % 64 ∧ 0x80 + n / 4096 % 64 ≤ 0xBF
                else if 0xF0 + n / 262144 = 0xF4 then
                  0x80 ≤ 0x80 + n / 4096 % 64 ∧ 0x80 + n / 4096 % 64 ≤ 0x8F
                else isCont ⟨0x80 + n / 4096 % 64, by omega⟩ = true) ∧
                isCont ⟨0x80 + n / 64 % 64, by omega⟩ = true ∧
                isCont ⟨0x80 + n % 64, by omega⟩ = true by
              refine ⟨?_, ?_, ?_⟩
              · split_ifs with hF hG
                · omega
                · omega
                · simp only [isCont, decide_eq_true_eq]
                  omega
              · simp only [isCont, decide_eq_true_eq]
                omega
              · simp only [isCont, decide_eq_true_eq]
                omega))]
        have harg : (0xF0 + n / 262144 - 0xF0) * 262144 + (0x80 + n / 4096 % 64 - 0x80) * 4096
            + (0x80 + n / 64 % 64 - 0x80) * 64 + (0x80 + n % 64 - 0x80) = n := by omega
        dsimp only
        rw [harg]

theorem utf8Decode_encodeChar (c : Char) (rest : List (Fin 256)) :
    utf8Decode (encodeChar c ++ rest)
      = (utf8Decode rest).map (fun cs => Char.ofNat c.toNat :: cs) := by
  rw [encodeChar]
  apply utf8Decode_encodeCp
  have hv : c.toNat.isValidChar := c.valid
  rcases hv with h | h
  · exact Or.inl h
  · exact Or.inr h.1

theorem utf8Encode_valid : ∀ t : List Char, ∃ u, utf8Decode (utf8Encode t) = some u := by
  intro t
  induction t with
  | nil => exact ⟨[], rfl⟩
  | cons c cs ih =>
    obtain ⟨u, hu⟩ := ih
    refine ⟨Char.ofNat c.toNat :: u, ?_⟩
    rw [utf8Encode, utf8Decode_encodeChar, hu]
    rfl

/-- C5 (counterexample): a markup file declaring a legacy charset with a
space between the opening quote and the name is converted successfully
on the first run, but the replacement pattern of ensure_meta_utf8 does
not match that declaration (its byte-level counterpart does), so the
persisted file still declares the legacy charset and the second run
converts again instead of skipping. -/
theorem C5_counterexample :
    (processFile
        (fun bs e => if e = "ISO-8859-1" then IconvRes.completed 0 bs else IconvRes.exn)
        (asciiBytes "<meta charset=\" iso-8859-1\">") "" true false).1
      = Outcome.ok "ISO-8859-1" ∧
    (processFile
        (fun bs e => if e = "ISO-8859-1" then IconvRes.completed 0 bs else IconvRes.exn)
        (utf8Encode (((processFile
          (fun bs e => if e = "ISO-8859-1" then IconvRes.completed 0 bs else IconvRes.exn)
          (asciiBytes "<meta charset=\" iso-8859-1\">") "" true false).2).getD []))
        "" true false).1
      ≠ Outcome.skip := by
  decide

/-- C5 (amended): a second run yields Skipped for every file that a
first run successfully converted, provided the persisted text's declared
charset, extracted from its UTF-8 encoding by the byte-level scan, is
absent or denotes UTF-8 or ASCII; the persisted bytes are always valid
UTF-8. -/
theorem C5_second_run_skips (oracle oracle2 : Iconv) (data : List (Fin 256))
    (det det2 : String) (isHtml isHtml2 dry2 : Bool) (enc : String) (t1 : List Char)
    (hrun : processFile oracle data det isHtml false = (.ok enc, some t1))
    (hdecl : declaredCharset (utf8Encode t1) = "" ∨
      upperS (declaredCharset (utf8Encode t1)) ∈ utf8Names) :
    (processFile oracle2 (utf8Encode t1) det2 isHtml2 dry2).1 = .skip := by
  obtain ⟨u, hu⟩ := utf8Encode_valid t1
  rw [processFile_skip oracle2 (utf8Encode t1) det2 isHtml2 dry2 u hu hdecl]

/-- Witness for C5: a markup file declaring iso-8859-1 in canonical quote
style converts on the first run, its persisted text declares utf-8, and
the second run skips. -/
theorem C5_witness :
    processFile
        (fun bs e => if e = "ISO-8859-1" then IconvRes.completed 0 bs else IconvRes.exn)
        (asciiBytes "<meta charset=\"iso-8859-1\">") "" true false
      = (.ok "ISO-8859-1", some (((processFile
          (fun bs e => if e = "ISO-8859-1" then IconvRes.completed 0 bs else IconvRes.exn)
          (asciiBytes "<meta charset=\"iso-8859-1\">") "" true false).2).getD [])) ∧
    (processFile
        (fun bs e => if e = "ISO-8859-1" then IconvRes.completed 0 bs else IconvRes.exn)
        (utf8Encode (((processFile
          (fun bs e => if e = "ISO-8859-1" then IconvRes.completed 0 bs else IconvRes.exn)
          (asciiBytes "<meta charset=\"iso-8859-1\">") "" true false).2).getD []))
        "" true false).1 = .skip :=
  ⟨by decide,
   C5_second_run_skips
     (fun bs e => if e = "ISO-8859-1" then IconvRes.completed 0 bs else IconvRes.exn)
     (fun bs e => if e = "ISO-8859-1" then IconvRes.completed 0 bs else IconvRes.exn)
     (asciiBytes "<meta charset=\"iso-8859-1\">") "" "" true true false "ISO-8859-1"
     (((processFile
        (fun bs e => if e = "ISO-8859-1" then IconvRes.completed 0 bs else IconvRes.exn)
        (asciiBytes "<meta charset=\"iso-8859-1\">") "" true false).2).getD [])
     (by decide) (Or.inr (by decide))⟩

end ToUtf8
